import Mathlib

/-!
Verification of the field-mapping differ in `compare_requests.py`.

The script's original logic is a camelCase→snake_case normalizer
(`camel_to_snake`) and three one-pass loops over two dictionaries that
classify every key of the first mapping as unmatched (no snake_case
counterpart in the second mapping), mismatched (counterpart present but
lower-cased string values differ) or matched (values agree).

Python dictionaries are embedded as association lists with distinct keys;
values are the strings and integers that appear in the script.  Character
classification (`str.isupper`, `str.lower`) is embedded by Lean's
`Char.isUpper` / `Char.toLower`, which agree with Python on the ASCII
identifiers and values the script handles.
-/

/-- A value stored in one of the request dictionaries: the script's
dictionaries hold strings and integers only. -/
inductive PyVal where
  | str : String → PyVal
  | int : Int → PyVal
deriving DecidableEq, Repr

/-- Python `str(v)` for the values in scope: a string prints itself, an
integer prints in decimal (with a leading minus sign when negative). -/
def PyVal.toStr : PyVal → String
  | .str s => s
  | .int n => toString n

/-- Python `s.lower()`: lower-case every character. -/
def strLower (s : String) : String :=
  ⟨s.data.map Char.toLower⟩

/-- The character-by-character loop of `camel_to_snake`, carrying the
`enumerate` index `i`: an upper-case character at a non-zero index emits
an underscore followed by its lower-case form, every other character
emits its lower-case form. -/
def camel_to_snake_core : List Char → Nat → List Char
  | [], _ => []
  | c :: rest, i =>
    if c.isUpper ∧ i > 0 then
      '_' :: c.toLower :: camel_to_snake_core rest (i + 1)
    else
      c.toLower :: camel_to_snake_core rest (i + 1)

/-- `camel_to_snake` from `compare_requests.py`: convert camelCase to
snake_case. -/
def camel_to_snake (name : String) : String :=
  ⟨camel_to_snake_core name.data 0⟩

/-- The spec's description of the normalizer, stated independently of the
loop: enumerate the characters, replace each upper-case character at a
non-zero index by an underscore followed by its lower-case form, and
lower-case every other character. -/
def camel_to_snake_spec (s : String) : String :=
  ⟨(s.data.enum.map (fun ic =>
      if ic.2.isUpper ∧ ic.1 > 0 then ['_', ic.2.toLower] else [ic.2.toLower])).flatten⟩

/-- A request dictionary: keys paired with values.  Python dictionaries
have distinct keys; theorems that depend on this take it as a
hypothesis. -/
abbrev Dict := List (String × PyVal)

/-- Python `d[k]` / `k in d` on the embedded dictionary. -/
def dictLookup (d : Dict) (k : String) : Option PyVal :=
  match d with
  | [] => none
  | (k', v) :: rest => if k' = k then some v else dictLookup rest k

/-- The `✗` branch of the field-name mapping loop: keys of `A` whose
snake_case form is not a key of `B`. -/
def unmatched (A B : Dict) : List String :=
  A.filterMap (fun kv =>
    match dictLookup B (camel_to_snake kv.1) with
    | none => some kv.1
    | some _ => none)

/-- The `differences` loop: for each key of `A` whose snake_case form is a
key of `B`, compare the lower-cased string forms of the two values and,
when they differ, record the key, its snake_case form and both raw
values. -/
def mismatched (A B : Dict) : List (String × String × PyVal × PyVal) :=
  A.filterMap (fun kv =>
    match dictLookup B (camel_to_snake kv.1) with
    | none => none
    | some w =>
      if strLower kv.2.toStr = strLower w.toStr then none
      else some (kv.1, camel_to_snake kv.1, kv.2, w))

/-- The `same_fields` loop: keys of `A` whose snake_case form is a key of
`B` and whose lower-cased string value agrees with `B`'s. -/
def same_fields (A B : Dict) : List String :=
  A.filterMap (fun kv =>
    match dictLookup B (camel_to_snake kv.1) with
    | none => none
    | some w =>
      if strLower kv.2.toStr = strLower w.toStr then some kv.1 else none)

/-- The camelCase shape described in the spec's testable property: a
non-empty identifier made of lower-case runs separated by single
upper-case letters, first character lower-case. -/
def camelShapeAux : List Char → Bool
  | [] => true
  | c :: rest =>
    if c.isLower then camelShapeAux rest
    else if c.isUpper then
      match rest with
      | [] => false
      | d :: _ => d.isLower && camelShapeAux rest
    else false

/-- The camelCase shape on strings: non-empty, first character lower-case,
rest made of lower-case runs separated by single upper-case letters. -/
def camelShape (s : String) : Bool :=
  match s.data with
  | [] => false
  | c :: rest => c.isLower && camelShapeAux rest

lemma char_isUpper_iff (c : Char) : c.isUpper = true ↔ (65 ≤ c.toNat ∧ c.toNat ≤ 90) := by
  simp only [Char.isUpper, Bool.and_eq_true, decide_eq_true_eq, Char.toNat, UInt32.le_def]
  constructor
  · rintro ⟨h1, h2⟩; exact ⟨by exact_mod_cast h1, by exact_mod_cast h2⟩
  · rintro ⟨h1, h2⟩; exact ⟨by exact_mod_cast h1, by exact_mod_cast h2⟩

lemma char_isLower_iff (c : Char) : c.isLower = true ↔ (97 ≤ c.toNat ∧ c.toNat ≤ 122) := by
  simp only [Char.isLower, Bool.and_eq_true, decide_eq_true_eq, Char.toNat, UInt32.le_def]
  constructor
  · rintro ⟨h1, h2⟩; exact ⟨by exact_mod_cast h1, by exact_mod_cast h2⟩
  · rintro ⟨h1, h2⟩; exact ⟨by exact_mod_cast h1, by exact_mod_cast h2⟩

lemma char_not_isUpper_of_isLower {c : Char} (h : c.isLower = true) : c.isUpper = false := by
  have hl := (char_isLower_iff c).mp h
  rw [Bool.eq_false_iff]
  intro hu
  have := (char_isUpper_iff c).mp hu
  omega

lemma char_toLower_of_not_isUpper {c : Char} (h : ¬ c.isUpper = true) : c.toLower = c := by
  have h2 : ¬ (c.toNat ≥ 65 ∧ c.toNat ≤ 90) := fun hc => h ((char_isUpper_iff c).mpr ⟨hc.1, hc.2⟩)
  rw [Char.toLower]
  simp [h2]

lemma char_toNat_ofNat_valid {n : Nat} (h : n.isValidChar) : (Char.ofNat n).toNat = n := by
  rw [Char.ofNat, dif_pos h]
  rfl

lemma char_toLower_not_isUpper (c : Char) : (c.toLower).isUpper = false := by
  by_cases h : c.isUpper = true
  · have hn := (char_isUpper_iff c).mp h
    have hlow : c.toLower = Char.ofNat (c.toNat + 32) := by
      rw [Char.toLower]
      simp [hn.1, hn.2]
    have hv : (c.toNat + 32).isValidChar := Or.inl (by omega)
    rw [hlow, Bool.eq_false_iff]
    intro hupper
    have := (char_isUpper_iff _).mp hupper
    rw [char_toNat_ofNat_valid hv] at this
    omega
  · rw [char_toLower_of_not_isUpper h, Bool.eq_false_iff]
    exact h

lemma camel_to_snake_core_nil (i : Nat) : camel_to_snake_core [] i = [] := rfl

lemma camel_to_snake_core_cons (c : Char) (rest : List Char) (i : Nat) :
    camel_to_snake_core (c :: rest) i =
      if c.isUpper ∧ i > 0 then '_' :: c.toLower :: camel_to_snake_core rest (i + 1)
      else c.toLower :: camel_to_snake_core rest (i + 1) := rfl

lemma camel_to_snake_core_enumFrom (l : List Char) (i : Nat) :
    camel_to_snake_core l i =
      ((List.enumFrom i l).map (fun ic =>
        if ic.2.isUpper ∧ ic.1 > 0 then ['_', ic.2.toLower] else [ic.2.toLower])).flatten := by
  induction l generalizing i with
  | nil => simp [camel_to_snake_core]
  | cons c rest ih =>
    by_cases h : c.isUpper ∧ i > 0 <;>
      simp [camel_to_snake_core, h, List.enumFrom, ih]

/-- Claim C2: `camel_to_snake` computes exactly the spec's description — an
underscore is inserted before every upper-case character not at index 0
and every character is lower-cased. -/
theorem camel_to_snake_eq_spec (s : String) :
    camel_to_snake s = camel_to_snake_spec s := by
  unfold camel_to_snake camel_to_snake_spec List.enum
  rw [camel_to_snake_core_enumFrom]

lemma camel_to_snake_core_of_no_upper (l : List Char) (i : Nat)
    (h : ∀ c ∈ l, c.isUpper = false) : camel_to_snake_core l i = l := by
  induction l generalizing i with
  | nil => rfl
  | cons c rest ih =>
    have hc : c.isUpper = false := h c (List.mem_cons_self c rest)
    have hcond : ¬ (c.isUpper = true ∧ i > 0) := by simp [hc]
    simp only [camel_to_snake_core, if_neg hcond]
    rw [char_toLower_of_not_isUpper (by simp [hc]),
      ih _ (fun d hd => h d (List.mem_cons_of_mem c hd))]

lemma camel_to_snake_core_no_upper (l : List Char) (i : Nat) :
    ∀ c ∈ camel_to_snake_core l i, c.isUpper = false := by
  induction l generalizing i with
  | nil => intro c hc; simp [camel_to_snake_core] at hc
  | cons d rest ih =>
    intro c hc
    by_cases hcond : (d.isUpper = true ∧ i > 0)
    · simp only [camel_to_snake_core, if_pos hcond, List.mem_cons] at hc
      rcases hc with rfl | rfl | hc
      · decide
      · exact char_toLower_not_isUpper d
      · exact ih (i + 1) c hc
    · simp only [camel_to_snake_core, if_neg hcond, List.mem_cons] at hc
      rcases hc with rfl | hc
      · exact char_toLower_not_isUpper d
      · exact ih (i + 1) c hc

lemma camel_to_snake_fix (s : String) (h : ∀ c ∈ s.data, c.isUpper = false) :
    camel_to_snake s = s := by
  unfold camel_to_snake
  rw [camel_to_snake_core_of_no_upper s.data 0 h]

/-- Claim C4: an input containing no upper-case character is returned
unchanged by `camel_to_snake`. -/
theorem camel_to_snake_id_of_no_upper (s : String) (h : ∀ c ∈ s.data, c.isUpper = false) :
    camel_to_snake s = s :=
  camel_to_snake_fix s h

/-- Witness for claim C4 at the concrete snake_case input `"token_id"`. -/
theorem camel_to_snake_id_of_no_upper_witness :
    (∀ c ∈ ("token_id" : String).data, c.isUpper = false) ∧
    camel_to_snake "token_id" = "token_id" :=
  ⟨by decide, camel_to_snake_id_of_no_upper "token_id" (by decide)⟩

/-- Claim C8: the output of `camel_to_snake` never contains an upper-case
character, hence the normalizer is idempotent on every input string. -/
theorem camel_to_snake_no_upper_idempotent (s : String) :
    (∀ c ∈ (camel_to_snake s).data, c.isUpper = false) ∧
    camel_to_snake (camel_to_snake s) = camel_to_snake s := by
  have hno : ∀ c ∈ (camel_to_snake s).data, c.isUpper = false :=
    camel_to_snake_core_no_upper s.data 0
  exact ⟨hno, camel_to_snake_fix (camel_to_snake s) hno⟩

lemma camel_to_snake_core_length (l : List Char) (i : Nat) (hi : 0 < i) :
    (camel_to_snake_core l i).length = l.length + l.countP (fun c => c.isUpper) := by
  induction l generalizing i with
  | nil => simp [camel_to_snake_core_nil]
  | cons c rest ih =>
    rw [camel_to_snake_core_cons]
    by_cases hc : c.isUpper = true
    · rw [if_pos ⟨hc, hi⟩]
      simp [ih (i + 1) (Nat.succ_pos i), List.countP_cons, hc]
      omega
    · rw [if_neg (by simp [hc])]
      simp [ih (i + 1) (Nat.succ_pos i), List.countP_cons, hc]
      omega

lemma camel_to_snake_core_length_shape (l : List Char) (h : camelShape ⟨l⟩ = true) :
    (camel_to_snake_core l 0).length = l.length + l.countP (fun c => c.isUpper) := by
  cases l with
  | nil => exact absurd h (by decide)
  | cons c rest =>
    have hlow : c.isLower = true := ((Bool.and_eq_true _ _).mp h).1
    have hc : c.isUpper = false := char_not_isUpper_of_isLower hlow
    rw [camel_to_snake_core_cons, if_neg (by simp [hc])]
    simp [camel_to_snake_core_length rest 1 Nat.one_pos, List.countP_cons, hc]
    omega

/-- Claim C5: on a camelCase identifier (lower-case runs separated by
single upper-case letters, first character lower-case) the normalizer
inserts exactly one underscore per upper-case letter — the output length
is the input length plus the number of upper-case letters — and the
output has no upper-case character; in particular `"contractAddress"`
maps to `"contract_address"` and `"tradingMethod"` to
`"trading_method"`. -/
theorem camel_to_snake_camelCase (s : String) (h : camelShape s = true) :
    (camel_to_snake s).length = s.length + s.data.countP (fun c => c.isUpper) ∧
    (∀ c ∈ (camel_to_snake s).data, c.isUpper = false) ∧
    camel_to_snake "contractAddress" = "contract_address" ∧
    camel_to_snake "tradingMethod" = "trading_method" := by
  refine ⟨?_, camel_to_snake_core_no_upper s.data 0, by decide, by decide⟩
  have hl : camelShape ⟨s.data⟩ = true := h
  exact camel_to_snake_core_length_shape s.data hl

/-- Witness for claim C5 at the concrete camelCase input
`"contractAddress"`. -/
theorem camel_to_snake_camelCase_witness :
    camelShape "contractAddress" = true ∧
    ((camel_to_snake "contractAddress").length =
      ("contractAddress" : String).length +
        ("contractAddress" : String).data.countP (fun c => c.isUpper) ∧
    (∀ c ∈ (camel_to_snake "contractAddress").data, c.isUpper = false) ∧
    camel_to_snake "contractAddress" = "contract_address" ∧
    camel_to_snake "tradingMethod" = "trading_method") :=
  ⟨by decide, camel_to_snake_camelCase "contractAddress" (by decide)⟩

lemma camel_to_snake_core_append (l1 l2 : List Char) (i : Nat) :
    camel_to_snake_core (l1 ++ l2) i =
      camel_to_snake_core l1 i ++ camel_to_snake_core l2 (i + l1.length) := by
  induction l1 generalizing i with
  | nil => simp [camel_to_snake_core_nil]
  | cons c rest ih =>
    rw [List.cons_append, camel_to_snake_core_cons, camel_to_snake_core_cons]
    have harith : i + 1 + rest.length = i + (c :: rest).length := by
      rw [List.length_cons]; omega
    by_cases hcond : (c.isUpper = true ∧ i > 0)
    · simp only [if_pos hcond]
      rw [ih (i + 1), harith]
      simp
    · simp only [if_neg hcond]
      rw [ih (i + 1), harith]
      simp

/-- Claim C10: an underscore immediately preceding an upper-case letter
survives and the upper-case letter still gets its own inserted
underscore, so the output doubles the underscore at that position;
concretely `"foo_Bar"` maps to `"foo__bar"` while `"fooBar"` maps to
`"foo_bar"`, and the two outputs differ. -/
theorem camel_to_snake_underscore_upper (s : String) (l1 l2 : List Char) (c : Char)
    (hs : s.data = l1 ++ '_' :: c :: l2) (hc : c.isUpper = true) :
    (camel_to_snake s).data =
      camel_to_snake_core l1 0 ++
        '_' :: '_' :: c.toLower :: camel_to_snake_core l2 (l1.length + 2) ∧
    camel_to_snake "foo_Bar" = "foo__bar" ∧
    camel_to_snake "fooBar" = "foo_bar" ∧
    camel_to_snake "foo_Bar" ≠ camel_to_snake "fooBar" := by
  refine ⟨?_, by decide, by decide, by decide⟩
  show camel_to_snake_core s.data 0 = _
  rw [hs, camel_to_snake_core_append l1 ('_' :: c :: l2) 0,
    camel_to_snake_core_cons, camel_to_snake_core_cons]
  have hcond1 : ¬ (('_' : Char).isUpper = true ∧ 0 + l1.length > 0) := by
    intro hcontra
    exact absurd hcontra.1 (by decide)
  have hcond2 : (c.isUpper = true ∧ 0 + l1.length + 1 > 0) := ⟨hc, by omega⟩
  rw [if_neg hcond1, if_pos hcond2]
  have h1 : ('_' : Char).toLower = '_' := by decide
  have h2 : 0 + l1.length + 1 + 1 = l1.length + 2 := by omega
  rw [h1, h2]

/-- Witness for claim C10 at the concrete mixed-convention input
`"foo_Bar"`. -/
theorem camel_to_snake_underscore_upper_witness :
    (("foo_Bar" : String).data = ['f', 'o', 'o'] ++ '_' :: 'B' :: ['a', 'r'] ∧
      ('B' : Char).isUpper = true) ∧
    ((camel_to_snake "foo_Bar").data =
      camel_to_snake_core ['f', 'o', 'o'] 0 ++
        '_' :: '_' :: ('B' : Char).toLower ::
          camel_to_snake_core ['a', 'r'] ((['f', 'o', 'o'] : List Char).length + 2) ∧
    camel_to_snake "foo_Bar" = "foo__bar" ∧
    camel_to_snake "fooBar" = "foo_bar" ∧
    camel_to_snake "foo_Bar" ≠ camel_to_snake "fooBar") :=
  ⟨⟨by decide, by decide⟩,
    camel_to_snake_underscore_upper "foo_Bar" ['f', 'o', 'o'] ['a', 'r'] 'B'
      (by decide) (by decide)⟩

lemma dict_val_eq_of_nodup {A : Dict} {k : String} {v v' : PyVal}
    (hNodup : (A.map Prod.fst).Nodup) (h1 : (k, v) ∈ A) (h2 : (k, v') ∈ A) : v = v' := by
  induction A with
  | nil => cases h1
  | cons kv rest ih =>
    rw [List.map_cons, List.nodup_cons] at hNodup
    rcases List.mem_cons.mp h1 with h1h | h1t
    · rcases List.mem_cons.mp h2 with h2h | h2t
      · exact congrArg Prod.snd (h1h.trans h2h.symm)
      · exact absurd (List.mem_map.mpr ⟨(k, v'), h2t, by rw [← h1h]⟩) hNodup.1
    · rcases List.mem_cons.mp h2 with h2h | h2t
      · exact absurd (List.mem_map.mpr ⟨(k, v), h1t, by rw [← h2h]⟩) hNodup.1
      · exact ih hNodup.2 h1t h2t

lemma mem_unmatched_iff (A B : Dict) (k : String) :
    k ∈ unmatched A B ↔ ∃ v, (k, v) ∈ A ∧ dictLookup B (camel_to_snake k) = none := by
  constructor
  · intro h
    obtain ⟨a, ha, hf⟩ := List.mem_filterMap.mp h
    cases hlook : dictLookup B (camel_to_snake a.1) with
    | none =>
      rw [hlook] at hf
      have hf' : some a.1 = some k := hf
      obtain rfl := Option.some.inj hf'
      exact ⟨a.2, ha, hlook⟩
    | some w =>
      rw [hlook] at hf
      exact Option.noConfusion hf
  · rintro ⟨v, hv, hlook⟩
    refine List.mem_filterMap.mpr ⟨(k, v), hv, ?_⟩
    show (match dictLookup B (camel_to_snake k) with
      | none => some k
      | some _ => none) = some k
    rw [hlook]

lemma mem_mismatched_iff (A B : Dict) (t : String × String × PyVal × PyVal) :
    t ∈ mismatched A B ↔
      (t.1, t.2.2.1) ∈ A ∧ t.2.1 = camel_to_snake t.1 ∧
      dictLookup B (camel_to_snake t.1) = some t.2.2.2 ∧
      ¬ strLower t.2.2.1.toStr = strLower t.2.2.2.toStr := by
  constructor
  · intro h
    obtain ⟨a, ha, hf⟩ := List.mem_filterMap.mp h
    cases hlook : dictLookup B (camel_to_snake a.1) with
    | none =>
      rw [hlook] at hf
      exact Option.noConfusion hf
    | some w =>
      rw [hlook] at hf
      have hf' : (if strLower a.2.toStr = strLower w.toStr then none
        else some (a.1, camel_to_snake a.1, a.2, w)) = some t := hf
      by_cases hcmp : strLower a.2.toStr = strLower w.toStr
      · rw [if_pos hcmp] at hf'
        exact Option.noConfusion hf'
      · rw [if_neg hcmp] at hf'
        obtain rfl := Option.some.inj hf'
        exact ⟨ha, rfl, hlook, hcmp⟩
  · rintro ⟨hA, h21, hlook, hcmp⟩
    refine List.mem_filterMap.mpr ⟨(t.1, t.2.2.1), hA, ?_⟩
    have hif : (if strLower t.2.2.1.toStr = strLower t.2.2.2.toStr then none
      else some (t.1, camel_to_snake t.1, t.2.2.1, t.2.2.2)) = some t := by
      rw [if_neg hcmp, ← h21]
    show (match dictLookup B (camel_to_snake t.1) with
      | none => none
      | some w =>
        if strLower t.2.2.1.toStr = strLower w.toStr then none
        else some (t.1, camel_to_snake t.1, t.2.2.1, w)) = some t
    rw [hlook]
    exact hif

lemma mem_same_fields_iff (A B : Dict) (k : String) :
    k ∈ same_fields A B ↔
      ∃ v w, (k, v) ∈ A ∧ dictLookup B (camel_to_snake k) = some w ∧
        strLower v.toStr = strLower w.toStr := by
  constructor
  · intro h
    obtain ⟨a, ha, hf⟩ := List.mem_filterMap.mp h
    cases hlook : dictLookup B (camel_to_snake a.1) with
    | none =>
      rw [hlook] at hf
      exact Option.noConfusion hf
    | some w =>
      rw [hlook] at hf
      have hf' : (if strLower a.2.toStr = strLower w.toStr then some a.1 else none)
          = some k := hf
      by_cases hcmp : strLower a.2.toStr = strLower w.toStr
      · rw [if_pos hcmp] at hf'
        obtain rfl := Option.some.inj hf'
        exact ⟨a.2, w, ha, hlook, hcmp⟩
      · rw [if_neg hcmp] at hf'
        exact Option.noConfusion hf'
  · rintro ⟨v, w, hv, hlook, hcmp⟩
    refine List.mem_filterMap.mpr ⟨(k, v), hv, ?_⟩
    show (match dictLookup B (camel_to_snake k) with
      | none => none
      | some w =>
        if strLower v.toStr = strLower w.toStr then some k else none) = some k
    rw [hlook]
    show (if strLower v.toStr = strLower w.toStr then some k else none) = some k
    rw [if_pos hcmp]

lemma mem_mismatched_keys_iff (A B : Dict) (k : String) :
    k ∈ (mismatched A B).map (fun t => t.1) ↔
      ∃ v w, (k, v) ∈ A ∧ dictLookup B (camel_to_snake k) = some w ∧
        ¬ strLower v.toStr = strLower w.toStr := by
  constructor
  · intro h
    obtain ⟨t, ht, hk⟩ := List.mem_map.mp h
    obtain ⟨hA, h21, hlook, hcmp⟩ := (mem_mismatched_iff A B t).mp ht
    subst hk
    exact ⟨t.2.2.1, t.2.2.2, hA, hlook, hcmp⟩
  · rintro ⟨v, w, hA, hlook, hcmp⟩
    exact List.mem_map.mpr ⟨(k, camel_to_snake k, v, w),
      (mem_mismatched_iff A B _).mpr ⟨hA, rfl, hlook, hcmp⟩, rfl⟩

lemma classify_total (A B : Dict) (k : String) (v : PyVal) (hk : (k, v) ∈ A) :
    k ∈ unmatched A B ∨ k ∈ (mismatched A B).map (fun t => t.1) ∨ k ∈ same_fields A B := by
  cases hlook : dictLookup B (camel_to_snake k) with
  | none => exact Or.inl ((mem_unmatched_iff A B k).mpr ⟨v, hk, hlook⟩)
  | some w =>
    by_cases hcmp : strLower v.toStr = strLower w.toStr
    · exact Or.inr (Or.inr ((mem_same_fields_iff A B k).mpr ⟨v, w, hk, hlook, hcmp⟩))
    · exact Or.inr (Or.inl ((mem_mismatched_keys_iff A B k).mpr ⟨v, w, hk, hlook, hcmp⟩))

/-- Claim C1: for a first mapping with distinct keys (as a Python dict
guarantees), the unmatched, mismatched and matched sets are pairwise
disjoint and their union is exactly the key set of the first mapping —
every key is classified into exactly one set and no key is dropped. -/
theorem comparator_partition (A B : Dict) (hNodup : (A.map Prod.fst).Nodup) :
    (∀ k, k ∈ unmatched A B → k ∉ (mismatched A B).map (fun t => t.1)) ∧
    (∀ k, k ∈ unmatched A B → k ∉ same_fields A B) ∧
    (∀ k, k ∈ (mismatched A B).map (fun t => t.1) → k ∉ same_fields A B) ∧
    (∀ k, k ∈ A.map Prod.fst ↔
      (k ∈ unmatched A B ∨ k ∈ (mismatched A B).map (fun t => t.1) ∨ k ∈ same_fields A B)) := by
  refine ⟨?_, ?_, ?_, ?_⟩
  · intro k h1 h2
    obtain ⟨v, _, hnone⟩ := (mem_unmatched_iff A B k).mp h1
    obtain ⟨v', w, _, hsome, _⟩ := (mem_mismatched_keys_iff A B k).mp h2
    rw [hnone] at hsome
    exact Option.noConfusion hsome
  · intro k h1 h2
    obtain ⟨v, _, hnone⟩ := (mem_unmatched_iff A B k).mp h1
    obtain ⟨v', w, _, hsome, _⟩ := (mem_same_fields_iff A B k).mp h2
    rw [hnone] at hsome
    exact Option.noConfusion hsome
  · intro k h1 h2
    obtain ⟨v, w, hvA, hsome, hcmp⟩ := (mem_mismatched_keys_iff A B k).mp h1
    obtain ⟨v', w', hv'A, hsome', hcmp'⟩ := (mem_same_fields_iff A B k).mp h2
    rw [hsome] at hsome'
    obtain rfl := Option.some.inj hsome'
    obtain rfl := dict_val_eq_of_nodup hNodup hvA hv'A
    exact hcmp hcmp'
  · intro k
    constructor
    · intro hk
      obtain ⟨kv, hkv, hfst⟩ := List.mem_map.mp hk
      exact classify_total A B k kv.2 (by rw [← hfst]; exact hkv)
    · intro hk
      rcases hk with h1 | h1 | h1
      · obtain ⟨v, hv, _⟩ := (mem_unmatched_iff A B k).mp h1
        exact List.mem_map.mpr ⟨(k, v), hv, rfl⟩
      · obtain ⟨v, w, hv, _, _⟩ := (mem_mismatched_keys_iff A B k).mp h1
        exact List.mem_map.mpr ⟨(k, v), hv, rfl⟩
      · obtain ⟨v, w, hv, _, _⟩ := (mem_same_fields_iff A B k).mp h1
        exact List.mem_map.mpr ⟨(k, v), hv, rfl⟩

/-- The spec's first end-to-end example: first mapping. -/
def exA : Dict := [("maker", PyVal.str "0xABC"), ("price", PyVal.str "0.01")]

/-- The spec's first end-to-end example: second mapping. -/
def exB : Dict := [("maker", PyVal.str "0xabc"), ("price", PyVal.str "0.02")]

/-- Witness for claim C1 at the spec's example mappings. -/
theorem comparator_partition_witness :
    ((exA.map Prod.fst).Nodup) ∧
    ((∀ k, k ∈ unmatched exA exB → k ∉ (mismatched exA exB).map (fun t => t.1)) ∧
     (∀ k, k ∈ unmatched exA exB → k ∉ same_fields exA exB) ∧
     (∀ k, k ∈ (mismatched exA exB).map (fun t => t.1) → k ∉ same_fields exA exB) ∧
     (∀ k, k ∈ exA.map Prod.fst ↔
       (k ∈ unmatched exA exB ∨ k ∈ (mismatched exA exB).map (fun t => t.1) ∨
         k ∈ same_fields exA exB))) :=
  ⟨by decide, comparator_partition exA exB (by decide)⟩

/-- Claim C3: for a key of `A` whose snake_case form is a key of `B`
(with value `w` there), the key is recorded as mismatched — with both raw
values retained — exactly when the lower-cased string forms differ, and
recorded as matched exactly when they agree. -/
theorem mismatched_same_fields_iff (A B : Dict) (k : String) (v w : PyVal)
    (hNodup : (A.map Prod.fst).Nodup) (hk : (k, v) ∈ A)
    (hw : dictLookup B (camel_to_snake k) = some w) :
    ((k, camel_to_snake k, v, w) ∈ mismatched A B ↔ ¬ strLower v.toStr = strLower w.toStr) ∧
    (k ∈ same_fields A B ↔ strLower v.toStr = strLower w.toStr) := by
  constructor
  · constructor
    · intro h
      exact ((mem_mismatched_iff A B _).mp h).2.2.2
    · intro hne
      exact (mem_mismatched_iff A B _).mpr ⟨hk, rfl, hw, hne⟩
  · constructor
    · intro h
      obtain ⟨v', w', hv', hw', hcmp'⟩ := (mem_same_fields_iff A B k).mp h
      rw [hw] at hw'
      obtain rfl := Option.some.inj hw'
      rw [dict_val_eq_of_nodup hNodup hk hv']
      exact hcmp'
    · intro heq
      exact (mem_same_fields_iff A B k).mpr ⟨v, w, hk, hw, heq⟩

/-- Witness for claim C3 at the spec's example mappings and the key
`"price"`. -/
theorem mismatched_same_fields_iff_witness :
    ((exA.map Prod.fst).Nodup ∧ ("price", PyVal.str "0.01") ∈ exA ∧
      dictLookup exB (camel_to_snake "price") = some (PyVal.str "0.02")) ∧
    ((("price", camel_to_snake "price", PyVal.str "0.01", PyVal.str "0.02") ∈ mismatched exA exB ↔
        ¬ strLower (PyVal.str "0.01").toStr = strLower (PyVal.str "0.02").toStr) ∧
      ("price" ∈ same_fields exA exB ↔
        strLower (PyVal.str "0.01").toStr = strLower (PyVal.str "0.02").toStr)) :=
  ⟨⟨by decide, by decide, by decide⟩,
    mismatched_same_fields_iff exA exB "price" (PyVal.str "0.01") (PyVal.str "0.02")
      (by decide) (by decide) (by decide)⟩

/-- Claim C6: the spec's two end-to-end examples — case-insensitive value
comparison makes `"maker"` match, `"price"` mismatch with both raw values
retained, and nothing unmatched; and `"feeRateBps"` against a mapping
without its snake_case form is unmatched. -/
theorem comparator_examples :
    same_fields exA exB = ["maker"] ∧
    mismatched exA exB = [("price", "price", PyVal.str "0.01", PyVal.str "0.02")] ∧
    unmatched exA exB = [] ∧
    unmatched [("feeRateBps", PyVal.str "0")] [("other_field", PyVal.str "0")]
      = ["feeRateBps"] :=
  ⟨by decide, by decide, by decide, by decide⟩

/-- Claim C7: normalization and comparison are total — `camel_to_snake`
always yields a result, and every key of the first mapping receives a
classification; the unmatched set is an ordinary outcome, not a
failure. -/
theorem normalizer_comparator_total (s : String) (A B : Dict) (k : String) (v : PyVal)
    (hk : (k, v) ∈ A) :
    (∃ t : String, camel_to_snake s = t) ∧
    (k ∈ unmatched A B ∨ k ∈ (mismatched A B).map (fun t => t.1) ∨ k ∈ same_fields A B) :=
  ⟨⟨camel_to_snake s, rfl⟩, classify_total A B k v hk⟩

/-- Witness for claim C7 at the spec's absent-key example. -/
theorem normalizer_comparator_total_witness :
    (("feeRateBps", PyVal.str "0") ∈ ([("feeRateBps", PyVal.str "0")] : Dict)) ∧
    ((∃ t : String, camel_to_snake "feeRateBps" = t) ∧
      ("feeRateBps" ∈ unmatched [("feeRateBps", PyVal.str "0")] [("other_field", PyVal.str "0")] ∨
       "feeRateBps" ∈ (mismatched [("feeRateBps", PyVal.str "0")]
          [("other_field", PyVal.str "0")]).map (fun t => t.1) ∨
       "feeRateBps" ∈ same_fields [("feeRateBps", PyVal.str "0")]
          [("other_field", PyVal.str "0")])) :=
  ⟨by decide,
    normalizer_comparator_total "feeRateBps" [("feeRateBps", PyVal.str "0")]
      [("other_field", PyVal.str "0")] "feeRateBps" (PyVal.str "0") (by decide)⟩

/-- Claim C9: `camel_to_snake` is not injective — the distinct inputs
`"tokenId"` and `"token_id"` share the image `"token_id"`, so two
distinct keys of the first mapping can be classified against the same
entry of the second. -/
theorem camel_to_snake_not_injective :
    camel_to_snake "tokenId" = "token_id" ∧
    camel_to_snake "token_id" = "token_id" ∧
    ("tokenId" : String) ≠ "token_id" ∧
    same_fields [("tokenId", PyVal.str "1"), ("token_id", PyVal.str "1")]
      [("token_id", PyVal.str "1")] = ["tokenId", "token_id"] :=
  ⟨by decide, by decide, by decide, by decide⟩
